import Mathlib

/-!
Verification of the furigana alignment engine of `japaneseparse`.

Strings are modelled as `List Char`, matching the Go code's pervasive
`[]rune(s)` conversions: every operation in the verified core is
rune-based.  The Reading Candidate Provider (the process-global
`kanjiReadingMap` populated from kanjidic2.xml) is modelled as an explicit
parameter `prov : Char → List (List Char)`; an unknown character yields
`[]`, exactly as `GetKanjiReadings` returns `nil`.  Logging calls are
omitted (logging/tracing is declared out of scope by the specification).
-/

namespace JapaneseParse

/-- One alignment pair `(unitText, furigana)`, the Go `[2]string`. -/
abbrev FuriPair := List Char × List Char

/-- From src/tokenize/tokenize.go:151-153: CJK ideograph test. -/
def isKanji (c : Char) : Bool :=
  0x4E00 ≤ c.toNat && c.toNat ≤ 0x9FFF

/-- From src/tokenize/tokenize.go:156-158: hiragana or katakana block test. -/
def isKana (c : Char) : Bool :=
  (0x3040 ≤ c.toNat && c.toNat ≤ 0x309F) || (0x30A0 ≤ c.toNat && c.toNat ≤ 0x30FF)

/-- From src/tokenize/tokenize.go:280-288 (`katakanaToHiragana`), action on
one rune: code points 0x30A1-0x30F6 are shifted down by 0x60, everything
else passes through. -/
def kataToHiraChar (c : Char) : Char :=
  if 0x30A1 ≤ c.toNat ∧ c.toNat ≤ 0x30F6 then Char.ofNat (c.toNat - 0x60) else c

/-- From src/tokenize/tokenize.go:280-288: rune-wise katakana-to-hiragana
conversion. -/
def katakanaToHiragana (s : List Char) : List Char :=
  s.map kataToHiraChar

/-- From src/unnamed/part_004:26-31: the fixed voicing table `rendakuMap`
(k/s/t/h rows). -/
def rendakuMap (c : Char) : Option Char :=
  match c with
  | 'か' => some 'が' | 'き' => some 'ぎ' | 'く' => some 'ぐ' | 'け' => some 'げ' | 'こ' => some 'ご'
  | 'さ' => some 'ざ' | 'し' => some 'じ' | 'す' => some 'ず' | 'せ' => some 'ぜ' | 'そ' => some 'ぞ'
  | 'た' => some 'だ' | 'ち' => some 'ぢ' | 'つ' => some 'づ' | 'て' => some 'で' | 'と' => some 'ど'
  | 'は' => some 'ば' | 'ひ' => some 'び' | 'ふ' => some 'ぶ' | 'へ' => some 'べ' | 'ほ' => some 'ぼ'
  | _ => none

/-- From src/unnamed/part_004:33-43 (`rendakuForm`, also exposed to the
tokenize package as `kanji.RendakuForm`): voice the first code point when
the table has an entry for it, otherwise return the input unchanged. -/
def rendakuForm (s : List Char) : List Char :=
  match s with
  | [] => []
  | c :: rest =>
    match rendakuMap c with
    | some v => v :: rest
    | none => c :: rest

/-- Modelled from the spec: `kanji.NormalizeReading` is called throughout
src/tokenize/tokenize.go but its definition is not under src/; the doc
comment at src/tokenize/tokenize.go:809-811 says it "removes non-kana
characters (like `.` or `-`) and converts katakana to hiragana", and the
spec (§3) says normalizing a candidate means stripping markers and
converting script. -/
def NormalizeReading (s : List Char) : List Char :=
  (katakanaToHiragana s).filter isKana

/-- The literal prefix-match guard used everywhere in the Go code:
`k+len(v) <= len(readingRunes) && string(readingRunes[k:k+len(v)]) == v`. -/
def MatchesAt (rd : List Char) (k : Nat) (v : List Char) : Prop :=
  k + v.length ≤ rd.length ∧ (rd.drop k).take v.length = v

instance (rd : List Char) (k : Nat) (v : List Char) : Decidable (MatchesAt rd k v) := by
  unfold MatchesAt; infer_instance

/-- From src/tokenize/tokenize.go:176-213: the normalized variants derived
from one raw candidate reading: (a) the full normalized candidate, (b) the
normalized stem before a `.` okurigana delimiter, (c) the normalized
candidate with a leading `-` rendaku marker stripped; (b) and (c) are
appended only when non-empty and not already present. -/
def variantsOf (kr : List Char) : List (List Char) :=
  let full := NormalizeReading kr
  let v1 : List (List Char) := if full = [] then [] else [full]
  let v2 :=
    if '.' ∈ kr then
      let preNorm := NormalizeReading (kr.takeWhile (fun c => c ≠ '.'))
      if preNorm ≠ [] ∧ preNorm ∉ v1 then v1 ++ [preNorm] else v1
    else v1
  if kr.head? = some '-' then
    let noLead := NormalizeReading (kr.drop 1)
    if noLead ≠ [] ∧ noLead ∉ v2 then v2 ++ [noLead] else v2
  else v2

/-- From src/tokenize/tokenize.go:215-235: the body of the variant loop of
`getFuriganaString`, updating the `(bestMatch, bestLen)` state: a literal
match longer than the current best wins (`len(vRunes) > bestLen`, the
matched reading substring is stored), and for a non-first unit (`j > 0`)
the rendaku form of the variant is tried the same way. -/
def tryVariant (rd : List Char) (j k : Nat) (st : List Char × Nat) (v : List Char) :
    List Char × Nat :=
  let st1 :=
    if MatchesAt rd k v ∧ st.2 < v.length then ((rd.drop k).take v.length, v.length) else st
  if 0 < j then
    let rf := rendakuForm v
    if MatchesAt rd k rf ∧ st1.2 < rf.length then ((rd.drop k).take rf.length, rf.length)
    else st1
  else st1

/-- The inner `for _, v := range variants` loop of
src/tokenize/tokenize.go:215-235, folded left over the variant list. -/
def tryVariantsList (rd : List Char) (j k : Nat) : List Char × Nat → List (List Char) → List Char × Nat
  | st, [] => st
  | st, v :: vs => tryVariantsList rd j k (tryVariant rd j k st v) vs

/-- The outer `for _, kr := range kanjiReadings` loop of
src/tokenize/tokenize.go:175-236: each candidate contributes its variants
to the running `(bestMatch, bestLen)` state. -/
def bestOverCands (rd : List Char) (j k : Nat) : List Char × Nat → List (List Char) → List Char × Nat
  | st, [] => st
  | st, kr :: more => bestOverCands rd j k (tryVariantsList rd j k st (variantsOf kr)) more

/-- The complete best-match computation of `getFuriganaString` for one
kanji `s` at surface index `j`, reading cursor `k`: start from
`("", 0)` and fold all candidates of the provider. -/
def bestMatchFor (prov : Char → List (List Char)) (rd : List Char) (j k : Nat) (s : Char) :
    List Char × Nat :=
  bestOverCands rd j k ([], 0) (prov s)

/-- From src/tokenize/tokenize.go:168-264: the main `for j` walk of
`getFuriganaString` over the surface runes, carrying the reading cursor
`k`; returns the pair list and the final cursor.  The kanji branch takes
the best (longest) match if any, otherwise absorbs the whole remaining
reading when no kanji follows (`isLastKanji`) and reading remains; the
kana branch emits `(s, "")` and advances the cursor only on
`readingRunes[k] == s`; other runes emit `(s, "")`. -/
def getFuriganaLoop (prov : Char → List (List Char)) (rd : List Char) :
    List Char → Nat → Nat → List FuriPair × Nat
  | [], _, k => ([], k)
  | s :: rest, j, k =>
    if isKanji s then
      let best := bestMatchFor prov rd j k s
      if best.1 ≠ [] then
        let r := getFuriganaLoop prov rd rest (j + 1) (k + best.2)
        (([s], best.1) :: r.1, r.2)
      else if rest.any isKanji = false ∧ k < rd.length then
        let r := getFuriganaLoop prov rd rest (j + 1) rd.length
        (([s], rd.drop k) :: r.1, r.2)
      else
        let r := getFuriganaLoop prov rd rest (j + 1) k
        (([s], []) :: r.1, r.2)
    else if isKana s then
      let k2 := if rd[k]? = some s then k + 1 else k
      let r := getFuriganaLoop prov rd rest (j + 1) k2
      (([s], []) :: r.1, r.2)
    else
      let r := getFuriganaLoop prov rd rest (j + 1) k
      (([s], []) :: r.1, r.2)

/-- From src/tokenize/tokenize.go:163-277 (`getFuriganaString`): normalize
the reading, walk the surface, and, when the surface holds no kanji at all
and reading remains unconsumed, append the leftover as a trailing pair
with empty unit text. -/
def getFuriganaString (prov : Char → List (List Char)) (surface reading : List Char) :
    List FuriPair :=
  let rd := katakanaToHiragana reading
  let r := getFuriganaLoop prov rd surface 0 0
  if surface.any isKanji = false ∧ r.2 < rd.length then r.1 ++ [([], rd.drop r.2)] else r.1

/-- From src/tokenize/tokenize.go:304-339 (`formatFuriganaBracketsOnly`):
pairs with empty unit text are skipped; a kanji unit always prints a
bracketed furigana block; kana and other units print their unit text.
(The `lastKanjiIdx` block at lines 306-324 computes values it never uses
and is omitted; Go's final `pair[0] != ""` guard is subsumed by the
leading emptiness check but kept literally.) -/
def formatFuriganaBracketsOnly : List FuriPair → List Char
  | [] => []
  | p :: ps =>
    (if p.1 = [] then []
     else if isKanji (p.1.headD ' ') then '[' :: (p.2 ++ [']'])
     else if isKana (p.1.headD ' ') then p.1
     else if p.1 ≠ [] then p.1
     else []) ++ formatFuriganaBracketsOnly ps

/-- From src/unnamed/part_005:752-780: the candidate loop of the
backtracking `recur` inside `alignFuriganaAccurate`.  Each candidate is
normalized to hiragana; on a literal prefix match the continuation is
tried at the advanced cursor, and the first candidate whose continuation
succeeds wins; otherwise the loop moves to the next candidate.
(The logging calls, one of which would index
`readingRunes[k:k+len(krRunes)]` before the bounds check, are omitted as
out-of-scope tracing.) -/
def tryCandidates (rd : List Char) (s : Char) (cont : Nat → Option (List FuriPair))
    (k : Nat) : List (List Char) → Option (List FuriPair)
  | [] => none
  | kr :: more =>
    let krH := katakanaToHiragana kr
    if MatchesAt rd k krH then
      match cont (k + krH.length) with
      | some ps => some (([s], krH) :: ps)
      | none => tryCandidates rd s cont k more
    else tryCandidates rd s cont k more

/-- From src/unnamed/part_005:723-827: the recursive backtracking search
`recur(j, k)` of `alignFuriganaAccurate`, phrased on the remaining surface
suffix with a fuel argument equal to its length (the Go recursion always
steps `j+1`, so the depth is exactly the surface length).  Terminal state:
surface exhausted succeeds iff `k == len(readingRunes)`.  Kanji: first
candidate whose prefix match and continuation succeed.  Kana: on
`readingRunes[k] == s` consume one rune with the kana itself as furigana;
otherwise keep the cursor and emit empty furigana (the unit is skipped,
not failed).  Other runes never consume. -/
def recurFuel (prov : Char → List (List Char)) (rd : List Char) :
    Nat → List Char → Nat → Option (List FuriPair)
  | _, [], k => if k = rd.length then some [] else none
  | 0, _ :: _, _ => none
  | fuel + 1, s :: rest, k =>
    if isKanji s then
      tryCandidates rd s (fun k2 => recurFuel prov rd fuel rest k2) k (prov s)
    else if isKana s then
      if rd[k]? = some s then
        (recurFuel prov rd fuel rest (k + 1)).map (fun ps => ([s], [s]) :: ps)
      else
        (recurFuel prov rd fuel rest k).map (fun ps => ([s], []) :: ps)
    else
      (recurFuel prov rd fuel rest k).map (fun ps => ([s], []) :: ps)

/-- The search of src/unnamed/part_005 entered at a given surface suffix
and cursor; the root call of the Go code is `recur(0, 0)`, i.e.
`recur prov rd surfaceRunes 0`. -/
def recur (prov : Char → List (List Char)) (rd : List Char)
    (srem : List Char) (k : Nat) : Option (List FuriPair) :=
  recurFuel prov rd srem.length srem k

/-- From src/unnamed/part_004:861-873: the fallback segment lengths.
`nKanji` iterations (here by fuel, mirroring `for i := 0; i < nKanji`),
each taking `total/nKanji` plus one when `i < total%nKanji`, clamped so
the running position never passes `total`. -/
def segLensGo (total nKanji : Nat) : Nat → Nat → Nat → List Nat
  | 0, _, _ => []
  | fuel + 1, i, pos =>
    let minLen := total / nKanji
    let extra := if i < total % nKanji then 1 else 0
    let raw := minLen + extra
    let segLen := if total < pos + raw then total - pos else raw
    segLen :: segLensGo total nKanji fuel (i + 1) (pos + segLen)

/-- From src/unnamed/part_004:871-873: cut the (normalized) reading into
the successive segments `readingRunes[pos:pos+segLen]`. -/
def segsFromLens : List Char → List Nat → List (List Char)
  | _, [] => []
  | rem, n :: ns => rem.take n :: segsFromLens (rem.drop n) ns

/-- From src/unnamed/part_004:874-885: assemble the fallback pairs: the
i-th kanji takes the i-th segment (`ki++`), a kana takes itself as
furigana, anything else takes the empty string. -/
def assignSegs : List Char → List (List Char) → List FuriPair
  | [], _ => []
  | s :: rest, segs =>
    if isKanji s then ([s], segs.headD []) :: assignSegs rest (segs.drop 1)
    else if isKana s then ([s], [s]) :: assignSegs rest segs
    else ([s], []) :: assignSegs rest segs

/-- The `segments` length list of src/unnamed/part_004:858-873 at the
root call (`i = 0`, `pos = 0`, `nKanji` iterations). -/
def fallbackLens (rd : List Char) (nKanji : Nat) : List Nat :=
  segLensGo rd.length nKanji nKanji 0 0

/-- The `segments` array of src/unnamed/part_004:858-873: the reading cut
at the fallback lengths. -/
def fallbackSegs (rd : List Char) (nKanji : Nat) : List (List Char) :=
  segsFromLens rd (fallbackLens rd nKanji)

/-- From src/unnamed/part_004:848-885: the complete Fallback Segmenter,
invoked when `recur(0,0)` reports failure: count the kanji, split the
normalized reading into that many segments, and assign them in surface
order. -/
def fallbackPairs (rd : List Char) (surf : List Char) : List FuriPair :=
  assignSegs surf (fallbackSegs rd ((surf.filter isKanji).length))

/-! ## Helper lemmas -/

/-- The hiragana/katakana blocks are disjoint from the CJK ideograph block. -/
theorem kana_not_kanji {c : Char} (h : isKana c = true) : isKanji c = false := by
  have h' : (0x3040 ≤ c.toNat ∧ c.toNat ≤ 0x309F) ∨ (0x30A0 ≤ c.toNat ∧ c.toNat ≤ 0x30FF) := by
    simpa [isKana, Bool.or_eq_true, Bool.and_eq_true, decide_eq_true_eq] using h
  cases hb : isKanji c with
  | false => rfl
  | true =>
    have hk : 0x4E00 ≤ c.toNat ∧ c.toNat ≤ 0x9FFF := by
      simpa [isKanji, Bool.and_eq_true, decide_eq_true_eq] using hb
    rcases h' with h' | h' <;> omega

theorem length_katakanaToHiragana (s : List Char) :
    (katakanaToHiragana s).length = s.length :=
  List.length_map s kataToHiraChar

/-- The `(bestMatch, bestLen)` state never shrinks through one variant. -/
theorem tryVariant_le (rd : List Char) (j k : Nat) (st : List Char × Nat) (v : List Char) :
    st.2 ≤ (tryVariant rd j k st v).2 := by
  unfold tryVariant
  dsimp only
  by_cases hA : MatchesAt rd k v ∧ st.2 < v.length
  · rw [if_pos hA]
    by_cases hj : 0 < j
    · rw [if_pos hj]
      by_cases hB : MatchesAt rd k (rendakuForm v) ∧
          (((rd.drop k).take v.length, v.length) : List Char × Nat).2 < (rendakuForm v).length
      · rw [if_pos hB]
        have h2 := hB.2
        have h1 := hA.2
        dsimp only at h2 ⊢
        omega
      · rw [if_neg hB]
        have h1 := hA.2
        dsimp only
        omega
    · rw [if_neg hj]
      have h1 := hA.2
      dsimp only
      omega
  · rw [if_neg hA]
    by_cases hj : 0 < j
    · rw [if_pos hj]
      by_cases hB : MatchesAt rd k (rendakuForm v) ∧ st.2 < (rendakuForm v).length
      · rw [if_pos hB]
        have h2 := hB.2
        dsimp only
        omega
      · rw [if_neg hB]
    · rw [if_neg hj]

theorem tryVariantsList_le (rd : List Char) (j k : Nat) (st : List Char × Nat)
    (vs : List (List Char)) : st.2 ≤ (tryVariantsList rd j k st vs).2 := by
  induction vs generalizing st with
  | nil => simp [tryVariantsList]
  | cons v vs ih =>
    simp only [tryVariantsList]
    exact le_trans (tryVariant_le rd j k st v) (ih _)

theorem bestOverCands_le (rd : List Char) (j k : Nat) (st : List Char × Nat)
    (l : List (List Char)) : st.2 ≤ (bestOverCands rd j k st l).2 := by
  induction l generalizing st with
  | nil => simp [bestOverCands]
  | cons kr more ih =>
    simp only [bestOverCands]
    exact le_trans (tryVariantsList_le rd j k st (variantsOf kr)) (ih _)

/-- After processing a literally matching variant, the best length is at
least that variant's length. -/
theorem tryVariant_ge_match (rd : List Char) (j k : Nat) (st : List Char × Nat)
    {v : List Char} (hm : MatchesAt rd k v) : v.length ≤ (tryVariant rd j k st v).2 := by
  by_cases hA : MatchesAt rd k v ∧ st.2 < v.length
  · unfold tryVariant
    dsimp only
    rw [if_pos hA]
    by_cases hj : 0 < j
    · rw [if_pos hj]
      by_cases hB : MatchesAt rd k (rendakuForm v) ∧
          (((rd.drop k).take v.length, v.length) : List Char × Nat).2 < (rendakuForm v).length
      · rw [if_pos hB]
        have h2 := hB.2
        dsimp only at h2 ⊢
        omega
      · rw [if_neg hB]
    · rw [if_neg hj]
  · have hlen : v.length ≤ st.2 := by
      rcases not_and_or.mp hA with h | h
      · exact absurd hm h
      · omega
    exact le_trans hlen (tryVariant_le rd j k st v)

/-- After processing a variant whose rendaku form matches (non-first unit),
the best length is at least that form's length. -/
theorem tryVariant_ge_rendaku (rd : List Char) (j k : Nat) (st : List Char × Nat)
    {v : List Char} (hj : 0 < j) (hm : MatchesAt rd k (rendakuForm v)) :
    (rendakuForm v).length ≤ (tryVariant rd j k st v).2 := by
  unfold tryVariant
  dsimp only
  rw [if_pos hj]
  by_cases hA : MatchesAt rd k v ∧ st.2 < v.length
  · rw [if_pos hA]
    by_cases hB : MatchesAt rd k (rendakuForm v) ∧
        (((rd.drop k).take v.length, v.length) : List Char × Nat).2 < (rendakuForm v).length
    · rw [if_pos hB]
    · rw [if_neg hB]
      rcases not_and_or.mp hB with h | h
      · exact absurd hm h
      · dsimp only at h ⊢
        omega
  · rw [if_neg hA]
    by_cases hB : MatchesAt rd k (rendakuForm v) ∧ st.2 < (rendakuForm v).length
    · rw [if_pos hB]
    · rw [if_neg hB]
      rcases not_and_or.mp hB with h | h
      · exact absurd hm h
      · omega

theorem tryVariantsList_ge (rd : List Char) (j k : Nat) (st : List Char × Nat)
    {v : List Char} {vs : List (List Char)} (hv : v ∈ vs) :
    (MatchesAt rd k v → v.length ≤ (tryVariantsList rd j k st vs).2) ∧
    (0 < j → MatchesAt rd k (rendakuForm v) →
      (rendakuForm v).length ≤ (tryVariantsList rd j k st vs).2) := by
  induction vs generalizing st with
  | nil => cases hv
  | cons w ws ih =>
    simp only [tryVariantsList]
    rcases List.mem_cons.mp hv with rfl | hv'
    · constructor
      · intro hm
        exact le_trans (tryVariant_ge_match rd j k st hm)
          (tryVariantsList_le rd j k _ ws)
      · intro hj hm
        exact le_trans (tryVariant_ge_rendaku rd j k st hj hm)
          (tryVariantsList_le rd j k _ ws)
    · exact ih _ hv'

theorem bestOverCands_ge (rd : List Char) (j k : Nat) (st : List Char × Nat)
    {kr v : List Char} {l : List (List Char)} (hkr : kr ∈ l) (hv : v ∈ variantsOf kr) :
    (MatchesAt rd k v → v.length ≤ (bestOverCands rd j k st l).2) ∧
    (0 < j → MatchesAt rd k (rendakuForm v) →
      (rendakuForm v).length ≤ (bestOverCands rd j k st l).2) := by
  induction l generalizing st with
  | nil => cases hkr
  | cons kr0 more ih =>
    simp only [bestOverCands]
    rcases List.mem_cons.mp hkr with rfl | hkr'
    · constructor
      · intro hm
        exact le_trans ((tryVariantsList_ge rd j k st hv).1 hm)
          (bestOverCands_le rd j k _ more)
      · intro hj hm
        exact le_trans ((tryVariantsList_ge rd j k st hv).2 hj hm)
          (bestOverCands_le rd j k _ more)
    · exact ih _ hkr'

/-- Soundness invariant for the best-match fold: the state is either still
the initial empty state, or records a literal (or, for `j > 0`, rendaku)
match of some variant of some candidate in `C`. -/
def GoodBest (rd : List Char) (j k : Nat) (C : List (List Char)) (st : List Char × Nat) : Prop :=
  (st.1 = [] ∧ st.2 = 0) ∨
  ∃ kr ∈ C, ∃ v ∈ variantsOf kr,
    (st.1 = v ∧ MatchesAt rd k v ∧ st.2 = v.length) ∨
    (0 < j ∧ st.1 = rendakuForm v ∧ MatchesAt rd k (rendakuForm v) ∧
      st.2 = (rendakuForm v).length)

theorem tryVariant_good (rd : List Char) (j k : Nat) {C : List (List Char)}
    {st : List Char × Nat} {kr v : List Char} (hkr : kr ∈ C) (hv : v ∈ variantsOf kr)
    (hst : GoodBest rd j k C st) : GoodBest rd j k C (tryVariant rd j k st v) := by
  unfold tryVariant
  dsimp only
  by_cases hA : MatchesAt rd k v ∧ st.2 < v.length
  · rw [if_pos hA]
    have hsub : (rd.drop k).take v.length = v := hA.1.2
    by_cases hj : 0 < j
    · rw [if_pos hj]
      by_cases hB : MatchesAt rd k (rendakuForm v) ∧
          (((rd.drop k).take v.length, v.length) : List Char × Nat).2 < (rendakuForm v).length
      · rw [if_pos hB]
        exact Or.inr ⟨kr, hkr, v, hv, Or.inr ⟨hj, hB.1.2, hB.1, rfl⟩⟩
      · rw [if_neg hB]
        exact Or.inr ⟨kr, hkr, v, hv, Or.inl ⟨hsub, hA.1, rfl⟩⟩
    · rw [if_neg hj]
      exact Or.inr ⟨kr, hkr, v, hv, Or.inl ⟨hsub, hA.1, rfl⟩⟩
  · rw [if_neg hA]
    by_cases hj : 0 < j
    · rw [if_pos hj]
      by_cases hB : MatchesAt rd k (rendakuForm v) ∧ st.2 < (rendakuForm v).length
      · rw [if_pos hB]
        exact Or.inr ⟨kr, hkr, v, hv, Or.inr ⟨hj, hB.1.2, hB.1, rfl⟩⟩
      · rw [if_neg hB]
        exact hst
    · rw [if_neg hj]
      exact hst

theorem tryVariantsList_good (rd : List Char) (j k : Nat) {C : List (List Char)}
    {st : List Char × Nat} {kr : List Char} {vs : List (List Char)} (hkr : kr ∈ C)
    (hvs : ∀ v ∈ vs, v ∈ variantsOf kr) (hst : GoodBest rd j k C st) :
    GoodBest rd j k C (tryVariantsList rd j k st vs) := by
  induction vs generalizing st with
  | nil => simpa [tryVariantsList] using hst
  | cons v ws ih =>
    simp only [tryVariantsList]
    exact ih (fun w hw => hvs w (List.mem_cons_of_mem v hw))
      (tryVariant_good rd j k hkr (hvs v (List.mem_cons_self v ws)) hst)

theorem bestOverCands_good (rd : List Char) (j k : Nat) {C : List (List Char)}
    {st : List Char × Nat} {l : List (List Char)} (hl : ∀ kr ∈ l, kr ∈ C)
    (hst : GoodBest rd j k C st) : GoodBest rd j k C (bestOverCands rd j k st l) := by
  induction l generalizing st with
  | nil => simpa [bestOverCands] using hst
  | cons kr more ih =>
    simp only [bestOverCands]
    exact ih (fun w hw => hl w (List.mem_cons_of_mem kr hw))
      (tryVariantsList_good rd j k (hl kr (List.mem_cons_self kr more))
        (fun v hv => hv) hst)

theorem bestMatchFor_good (prov : Char → List (List Char)) (rd : List Char)
    (j k : Nat) (s : Char) : GoodBest rd j k (prov s) (bestMatchFor prov rd j k s) :=
  bestOverCands_good rd j k (fun _ h => h) (Or.inl ⟨rfl, rfl⟩)

/-- When the best match is non-empty, the consumed span stays inside the
reading: `k + bestLen ≤ len(readingRunes)`. -/
theorem bestMatchFor_bound (prov : Char → List (List Char)) (rd : List Char)
    (j k : Nat) (s : Char) (h : (bestMatchFor prov rd j k s).1 ≠ []) :
    k + (bestMatchFor prov rd j k s).2 ≤ rd.length := by
  rcases bestMatchFor_good prov rd j k s with ⟨h1, _⟩ | ⟨kr, _, v, _, hcase⟩
  · exact absurd h1 h
  · rcases hcase with ⟨_, hm, hlen⟩ | ⟨_, _, hm, hlen⟩ <;> rw [hlen] <;> exact hm.1

/-- A variant matching nothing (nor via rendaku when `j > 0`) leaves the
state untouched. -/
theorem tryVariant_id (rd : List Char) (j k : Nat) (st : List Char × Nat)
    {v : List Char} (h1 : ¬ MatchesAt rd k v)
    (h2 : 0 < j → ¬ MatchesAt rd k (rendakuForm v)) :
    tryVariant rd j k st v = st := by
  unfold tryVariant
  dsimp only
  have hA : ¬ (MatchesAt rd k v ∧ st.2 < v.length) := fun hc => h1 hc.1
  rw [if_neg hA]
  by_cases hj : 0 < j
  · rw [if_pos hj]
    have hB : ¬ (MatchesAt rd k (rendakuForm v) ∧ st.2 < (rendakuForm v).length) :=
      fun hc => h2 hj hc.1
    rw [if_neg hB]
  · rw [if_neg hj]

theorem bestMatchFor_eq_nil (prov : Char → List (List Char)) (rd : List Char)
    (j k : Nat) (s : Char)
    (h : ∀ kr ∈ prov s, ∀ v ∈ variantsOf kr,
      ¬ MatchesAt rd k v ∧ (0 < j → ¬ MatchesAt rd k (rendakuForm v))) :
    bestMatchFor prov rd j k s = ([], 0) := by
  rcases bestMatchFor_good prov rd j k s with ⟨h1, h2⟩ | ⟨kr, hkr, v, hv, hcase⟩
  · exact Prod.ext h1 h2
  · rcases hcase with ⟨_, hm, _⟩ | ⟨hj, _, hm, _⟩
    · exact absurd hm (h kr hkr v hv).1
    · exact absurd hm ((h kr hkr v hv).2 hj)

/-- The walk emits exactly one pair per surface rune, whose unit text is
that rune: concatenating the unit texts re-creates the surface suffix. -/
theorem getFuriganaLoop_texts (prov : Char → List (List Char)) (rd : List Char)
    (srem : List Char) (j k : Nat) :
    ((getFuriganaLoop prov rd srem j k).1.map Prod.fst).flatten = srem := by
  induction srem generalizing j k with
  | nil => simp [getFuriganaLoop]
  | cons s rest ih =>
    simp only [getFuriganaLoop]
    split_ifs with h1 h2 h3 h4 <;> simp [ih]

/-- Cursor invariant of the walk: starting within bounds, the final cursor
is monotone and bounded by the reading length. -/
theorem getFuriganaLoop_cursor_le (prov : Char → List (List Char)) (rd : List Char)
    (srem : List Char) (j k : Nat) (h : k ≤ rd.length) :
    k ≤ (getFuriganaLoop prov rd srem j k).2 ∧
      (getFuriganaLoop prov rd srem j k).2 ≤ rd.length := by
  induction srem generalizing j k with
  | nil => simpa [getFuriganaLoop] using h
  | cons s rest ih =>
    simp only [getFuriganaLoop]
    by_cases h1 : isKanji s = true
    · rw [if_pos h1]
      by_cases h2 : (bestMatchFor prov rd j k s).1 ≠ []
      · rw [if_pos h2]
        have hb := bestMatchFor_bound prov rd j k s h2
        have := ih (j + 1) (k + (bestMatchFor prov rd j k s).2) hb
        dsimp only
        omega
      · rw [if_neg h2]
        by_cases h3 : rest.any isKanji = false ∧ k < rd.length
        · rw [if_pos h3]
          have := ih (j + 1) rd.length (le_refl _)
          dsimp only
          omega
        · rw [if_neg h3]
          have := ih (j + 1) k h
          dsimp only
          omega
    · rw [if_neg h1]
      by_cases hk : isKana s = true
      · rw [if_pos hk]
        by_cases h4 : rd[k]? = some s
        · rw [if_pos h4]
          have hlt : k < rd.length := by
            have := List.getElem?_eq_some.mp h4
            exact this.1
          have := ih (j + 1) (k + 1) hlt
          dsimp only
          omega
        · rw [if_neg h4]
          have := ih (j + 1) k h
          dsimp only
          omega
      · rw [if_neg hk]
        have := ih (j + 1) k h
        dsimp only
        omega

/-- Once the cursor sits at the end of the reading and no kanji remains,
the walk leaves the cursor at the end. -/
theorem getFuriganaLoop_k_fixed (prov : Char → List (List Char)) (rd : List Char)
    (srem : List Char) (j : Nat) (h : srem.any isKanji = false) :
    (getFuriganaLoop prov rd srem j rd.length).2 = rd.length := by
  induction srem generalizing j with
  | nil => simp [getFuriganaLoop]
  | cons s rest ih =>
    have hs : isKanji s = false := by
      have := List.any_eq_false.mp h  -- hmm lemma name check
      exact Bool.eq_false_iff.mpr (fun hc => by
        have := this s (List.mem_cons_self s rest)
        simp [hc] at this)
    have hrest : rest.any isKanji = false := by
      rw [List.any_eq_false] at h ⊢
      exact fun a ha => h a (List.mem_cons_of_mem s ha)
    simp only [getFuriganaLoop]
    rw [if_neg (by simp [hs])]
    by_cases hk : isKana s = true
    · rw [if_pos hk]
      have hnone : rd[rd.length]? = none := by
        simp
      rw [hnone]
      simp only [reduceCtorEq, if_false]  -- (none = some s) is False
      exact ih (j + 1) hrest
    · rw [if_neg hk]
      exact ih (j + 1) hrest


/-- `formatFuriganaBracketsOnly` distributes over list concatenation. -/
theorem formatFuriganaBracketsOnly_append (a b : List FuriPair) :
    formatFuriganaBracketsOnly (a ++ b) =
      formatFuriganaBracketsOnly a ++ formatFuriganaBracketsOnly b := by
  induction a with
  | nil => simp [formatFuriganaBracketsOnly]
  | cons p ps ih => simp [formatFuriganaBracketsOnly, ih]

/-- A pair with empty unit text contributes nothing to the formatted
output. -/
theorem formatFuriganaBracketsOnly_empty_unit (x : List Char) :
    formatFuriganaBracketsOnly [([], x)] = [] := by
  simp [formatFuriganaBracketsOnly]

/-- On a kanji-free surface suffix, formatting the walk's pairs prints the
suffix itself. -/
theorem format_loop_no_kanji (prov : Char → List (List Char)) (rd : List Char)
    (srem : List Char) (j k : Nat) (h : srem.any isKanji = false) :
    formatFuriganaBracketsOnly (getFuriganaLoop prov rd srem j k).1 = srem := by
  induction srem generalizing j k with
  | nil => simp [getFuriganaLoop, formatFuriganaBracketsOnly]
  | cons s rest ih =>
    have hs : isKanji s = false := by
      have hall := List.any_eq_false.mp h
      exact Bool.eq_false_iff.mpr (fun hc => (hall s (List.mem_cons_self s rest)) hc)
    have hrest : rest.any isKanji = false := by
      rw [List.any_eq_false] at h ⊢
      exact fun a ha => h a (List.mem_cons_of_mem s ha)
    simp only [getFuriganaLoop]
    rw [if_neg (by simp [hs])]
    by_cases hk : isKana s = true
    · rw [if_pos hk]
      dsimp only
      rw [show ∀ ps, formatFuriganaBracketsOnly (([s], ([] : List Char)) :: ps) =
            (if ([s] : List Char) = [] then []
             else if isKanji (([s] : List Char).headD ' ') then '[' :: (([] : List Char) ++ [']'])
             else if isKana (([s] : List Char).headD ' ') then [s]
             else if ([s] : List Char) ≠ [] then [s] else []) ++ formatFuriganaBracketsOnly ps
          from fun ps => rfl]
      rw [ih _ _ hrest]
      simp [hs, hk]
    · rw [if_neg hk]
      dsimp only
      rw [show ∀ ps, formatFuriganaBracketsOnly (([s], ([] : List Char)) :: ps) =
            (if ([s] : List Char) = [] then []
             else if isKanji (([s] : List Char).headD ' ') then '[' :: (([] : List Char) ++ [']'])
             else if isKana (([s] : List Char).headD ' ') then [s]
             else if ([s] : List Char) ≠ [] then [s] else []) ++ formatFuriganaBracketsOnly ps
          from fun ps => rfl]
      rw [ih _ _ hrest]
      simp [hs, hk]

/-- Unfolding `recur` on a kanji head: the candidate loop with the
continuation entering the surface tail. -/
theorem recur_cons_kanji (prov : Char → List (List Char)) (rd : List Char)
    {s : Char} (rest : List Char) (k : Nat) (h : isKanji s = true) :
    recur prov rd (s :: rest) k =
      tryCandidates rd s (fun k2 => recur prov rd rest k2) k (prov s) := by
  show recurFuel prov rd (rest.length + 1) (s :: rest) k = _
  simp only [recurFuel, h, if_true]
  rfl

/-- Unfolding `recur` on a kana head: consume on match (the kana itself as
furigana), skip with empty furigana on mismatch. -/
theorem recur_cons_kana (prov : Char → List (List Char)) (rd : List Char)
    {s : Char} (rest : List Char) (k : Nat) (h : isKana s = true) :
    recur prov rd (s :: rest) k =
      if rd[k]? = some s then
        (recur prov rd rest (k + 1)).map (fun ps => ([s], [s]) :: ps)
      else
        (recur prov rd rest k).map (fun ps => ([s], []) :: ps) := by
  show recurFuel prov rd (rest.length + 1) (s :: rest) k = _
  simp only [recurFuel, kana_not_kanji h, h, if_true, Bool.false_eq_true, if_false]
  rfl

/-- Unfolding `recur` on a head that is neither kanji nor kana: never
consumes, empty furigana. -/
theorem recur_cons_other (prov : Char → List (List Char)) (rd : List Char)
    {s : Char} (rest : List Char) (k : Nat) (h1 : isKanji s = false) (h2 : isKana s = false) :
    recur prov rd (s :: rest) k =
      (recur prov rd rest k).map (fun ps => ([s], []) :: ps) := by
  show recurFuel prov rd (rest.length + 1) (s :: rest) k = _
  simp only [recurFuel, h1, h2, Bool.false_eq_true, if_false]
  rfl

/-- Unfolding `recur` on the empty surface: success exactly when the whole
reading is consumed. -/
theorem recur_nil (prov : Char → List (List Char)) (rd : List Char) (k : Nat) :
    recur prov rd [] k = if k = rd.length then some [] else none := rfl

/-- A successful candidate loop pins down the accepted candidate: it is a
member of the list, it literally prefix-matches, and its continuation
succeeded at the advanced cursor. -/
theorem tryCandidates_eq_some {rd : List Char} {s : Char}
    {cont : Nat → Option (List FuriPair)} {k : Nat} {cands : List (List Char)}
    {ps : List FuriPair} (h : tryCandidates rd s cont k cands = some ps) :
    ∃ kr ∈ cands, MatchesAt rd k (katakanaToHiragana kr) ∧
      ∃ tl, cont (k + (katakanaToHiragana kr).length) = some tl ∧
        ps = ([s], katakanaToHiragana kr) :: tl := by
  induction cands with
  | nil => simp [tryCandidates] at h
  | cons kr more ih =>
    simp only [tryCandidates] at h
    by_cases hm : MatchesAt rd k (katakanaToHiragana kr)
    · rw [if_pos hm] at h
      cases hc : cont (k + (katakanaToHiragana kr).length) with
      | some tl =>
        rw [hc] at h
        dsimp only at h
        exact ⟨kr, List.mem_cons_self kr more, hm, tl, hc, (Option.some.inj h).symm⟩
      | none =>
        rw [hc] at h
        dsimp only at h
        obtain ⟨kr', hkr', hm', tl, hc', hps⟩ := ih h
        exact ⟨kr', List.mem_cons_of_mem kr hkr', hm', tl, hc', hps⟩
    · rw [if_neg hm] at h
      obtain ⟨kr', hkr', hm', tl, hc', hps⟩ := ih h
      exact ⟨kr', List.mem_cons_of_mem kr hkr', hm', tl, hc', hps⟩

/-- Core conservation property of the backtracking search: on success, the
returned furigana spans concatenate to exactly the unconsumed reading
suffix, and the unit texts concatenate to the surface suffix. -/
theorem recur_eq_some_flatten {prov : Char → List (List Char)} {rd : List Char}
    {srem : List Char} {k : Nat} {ps : List FuriPair}
    (h : recur prov rd srem k = some ps) :
    (ps.map Prod.snd).flatten = rd.drop k ∧ (ps.map Prod.fst).flatten = srem := by
  induction srem generalizing k ps with
  | nil =>
    rw [recur_nil] at h
    by_cases hk : k = rd.length
    · rw [if_pos hk] at h
      cases h
      subst hk
      simp [List.drop_length]
    · rw [if_neg hk] at h
      cases h
  | cons s rest ih =>
    by_cases h1 : isKanji s = true
    · rw [recur_cons_kanji prov rd rest k h1] at h
      obtain ⟨kr, _, hm, tl, hc, rfl⟩ := tryCandidates_eq_some h
      obtain ⟨ht1, ht2⟩ := ih hc
      constructor
      · simp only [List.map_cons, List.flatten_cons]
        rw [ht1]
        have hsplit := List.take_append_drop (katakanaToHiragana kr).length (rd.drop k)
        rw [hm.2] at hsplit
        rw [List.drop_drop] at hsplit
        exact hsplit
      · simp only [List.map_cons, List.flatten_cons, ht2]
        rfl
    · by_cases h2 : isKana s = true
      · rw [recur_cons_kana prov rd rest k h2] at h
        by_cases hg : rd[k]? = some s
        · rw [if_pos hg] at h
          cases hr : recur prov rd rest (k + 1) with
          | none => rw [hr] at h; cases h
          | some tl =>
            rw [hr] at h
            dsimp only [Option.map] at h
            obtain rfl := (Option.some.inj h).symm
            obtain ⟨ht1, ht2⟩ := ih hr
            obtain ⟨hlt, hget⟩ := List.getElem?_eq_some.mp hg
            constructor
            · simp only [List.map_cons, List.flatten_cons]
              rw [ht1, List.drop_eq_getElem_cons hlt, hget]
              rfl
            · simp only [List.map_cons, List.flatten_cons, ht2]
              rfl
        · rw [if_neg hg] at h
          cases hr : recur prov rd rest k with
          | none => rw [hr] at h; cases h
          | some tl =>
            rw [hr] at h
            dsimp only [Option.map] at h
            obtain rfl := (Option.some.inj h).symm
            obtain ⟨ht1, ht2⟩ := ih hr
            constructor
            · simpa using ht1
            · simp only [List.map_cons, List.flatten_cons, ht2]
              rfl
      · have h2' : isKana s = false := by
          cases hb : isKana s
          · rfl
          · exact absurd hb h2
        have h1' : isKanji s = false := by
          cases hb : isKanji s
          · rfl
          · exact absurd hb h1
        rw [recur_cons_other prov rd rest k h1' h2'] at h
        cases hr : recur prov rd rest k with
        | none => rw [hr] at h; cases h
        | some tl =>
          rw [hr] at h
          dsimp only [Option.map] at h
          obtain rfl := (Option.some.inj h).symm
          obtain ⟨ht1, ht2⟩ := ih hr
          constructor
          · simpa using ht1
          · simp only [List.map_cons, List.flatten_cons, ht2]
            rfl

/-- Closed form of the fallback segment lengths: starting at index `i`
with the running position at its invariant value, each of the remaining
iterations yields `total/n` plus one for the first `total%n` indices; the
clamp in the source never fires. -/
theorem segLensGo_formula (total n : Nat) (hn : 0 < n) :
    ∀ fuel i, i + fuel ≤ n →
      segLensGo total n fuel i (i * (total / n) + min i (total % n)) =
        (List.range fuel).map (fun t => total / n + if i + t < total % n then 1 else 0) := by
  intro fuel
  induction fuel with
  | zero => intro i _; simp [segLensGo]
  | succ f ihf =>
    intro i hif
    have hmod : total % n < n := Nat.mod_lt _ hn
    have hdiv : n * (total / n) + total % n = total := Nat.div_add_mod total n
    have hi1 : i + 1 ≤ n := by omega
    have hmul : (i + 1) * (total / n) ≤ n * (total / n) :=
      Nat.mul_le_mul_right _ hi1
    simp only [segLensGo]
    have hraw : (if i < total % n then 1 else 0) = min (i + 1) (total % n) - min i (total % n) := by
      by_cases hc : i < total % n
      · rw [if_pos hc]
        omega
      · rw [if_neg hc]
        omega
    have hnoclamp : ¬ (total < i * (total / n) + min i (total % n) +
        (total / n + if i < total % n then 1 else 0)) := by
      rw [hraw]
      have : (i + 1) * (total / n) = i * (total / n) + total / n := by
        rw [Nat.succ_mul]
      omega
    rw [if_neg hnoclamp]
    have hpos : i * (total / n) + min i (total % n) + (total / n + if i < total % n then 1 else 0)
        = (i + 1) * (total / n) + min (i + 1) (total % n) := by
      rw [hraw]
      have : (i + 1) * (total / n) = i * (total / n) + total / n := by
        rw [Nat.succ_mul]
      omega
    rw [hpos, ihf (i + 1) (by omega)]
    rw [List.range_succ_eq_map, List.map_cons, List.map_map]
    refine List.cons_eq_cons.mpr ⟨by norm_num, ?_⟩
    apply List.map_congr_left
    intro t _
    simp only [Function.comp_apply]
    congr 1
    have harith : i + Nat.succ t = i + 1 + t := by omega
    rw [harith]

/-- The fallback segment lengths at the root call. -/
theorem segLensGo_root (total n : Nat) (hn : 0 < n) :
    segLensGo total n n 0 0 =
      (List.range n).map (fun t => total / n + if t < total % n then 1 else 0) := by
  have := segLensGo_formula total n hn n 0 (by omega)
  simpa using this

/-- Sum of the closed-form lengths over any range. -/
theorem segLens_sum_range (q r : Nat) :
    ∀ m, ((List.range m).map (fun t => q + if t < r then 1 else 0)).sum = m * q + min m r := by
  intro m
  induction m with
  | zero => simp
  | succ m ihm =>
    rw [List.range_succ, List.map_append, List.sum_append, ihm]
    have : (m + 1) * q = m * q + q := by rw [Nat.succ_mul]
    by_cases hc : m < r
    · simp only [List.map_cons, List.map_nil, List.sum_cons, List.sum_nil, if_pos hc]
      omega
    · simp only [List.map_cons, List.map_nil, List.sum_cons, List.sum_nil, if_neg hc]
      omega

/-- The segments cut from the reading concatenate to its prefix of length
the sum of the segment lengths. -/
theorem segsFromLens_flatten (lens : List Nat) :
    ∀ rem : List Char, (segsFromLens rem lens).flatten = rem.take lens.sum := by
  induction lens with
  | nil => intro rem; simp [segsFromLens]
  | cons a ls ih =>
    intro rem
    simp only [segsFromLens, List.flatten_cons, ih, List.sum_cons]
    rw [List.take_add]

/-- Lengths of the cut segments: each segment has its prescribed length
once the lengths fit in the remainder. -/
theorem segsFromLens_length (lens : List Nat) :
    ∀ rem : List Char, (segsFromLens rem lens).length = lens.length := by
  induction lens with
  | nil => intro rem; simp [segsFromLens]
  | cons a ls ih => intro rem; simp [segsFromLens, ih]

/-- The kanji-indexed pairs of `assignSegs` carry exactly the successive
segments. -/
theorem assignSegs_kanji_furigana :
    ∀ (surf : List Char) (segs : List (List Char)),
      (surf.filter isKanji).length ≤ segs.length →
      ((assignSegs surf segs).filter (fun p => p.1.any isKanji)).map Prod.snd =
        segs.take (surf.filter isKanji).length := by
  intro surf
  induction surf with
  | nil => intro segs _; simp [assignSegs]
  | cons s rest ih =>
    intro segs hle
    by_cases h1 : isKanji s = true
    · obtain ⟨a, tl, rfl⟩ : ∃ a tl, segs = a :: tl := by
        cases segs with
        | nil =>
          exfalso
          simp [List.filter_cons, h1] at hle
        | cons a tl => exact ⟨a, tl, rfl⟩
      have hle' : (rest.filter isKanji).length ≤ tl.length := by
        simp [List.filter_cons, h1] at hle
        omega
      simp [assignSegs, h1, List.filter_cons, ih tl hle']
    · have h1' : isKanji s = false := by
        cases hb : isKanji s
        · rfl
        · exact absurd hb h1
      have hle' : (rest.filter isKanji).length ≤ segs.length := by
        simpa [List.filter_cons, h1'] using hle
      by_cases h2 : isKana s = true
      · simp [assignSegs, h1', h2, List.filter_cons, ih segs hle']
      · have h2' : isKana s = false := by
          cases hb : isKana s
          · rfl
          · exact absurd hb h2
        simp [assignSegs, h1', h2', List.filter_cons, ih segs hle']

/-! ## Claim theorems -/

/-- C2: for every provider and (Surface, Reading) pair, concatenating the
unit texts of all pairs returned by `getFuriganaString`, in order,
reconstructs the surface exactly (the leftover pair, when present, has
empty unit text and contributes nothing). -/
theorem getFuriganaString_covers_surface (prov : Char → List (List Char))
    (surface reading : List Char) :
    ((getFuriganaString prov surface reading).map Prod.fst).flatten = surface := by
  unfold getFuriganaString
  dsimp only
  split_ifs with h
  · rw [List.map_append, List.flatten_append, getFuriganaLoop_texts]
    simp
  · exact getFuriganaLoop_texts prov (katakanaToHiragana reading) surface 0 0

/-- C9: throughout the walk of `getFuriganaString` the reading cursor is
monotone non-decreasing and never exceeds the length of the normalized
reading, which equals `len(Reading)`; hence the total consumption of any
returned alignment is at most `len(Reading)`. -/
theorem getFuriganaLoop_cursor_monotone_bounded (prov : Char → List (List Char))
    (reading srem : List Char) (j k : Nat)
    (h : k ≤ (katakanaToHiragana reading).length) :
    k ≤ (getFuriganaLoop prov (katakanaToHiragana reading) srem j k).2 ∧
      (getFuriganaLoop prov (katakanaToHiragana reading) srem j k).2 ≤ reading.length := by
  have hb := getFuriganaLoop_cursor_le prov (katakanaToHiragana reading) srem j k h
  rwa [length_katakanaToHiragana] at hb

theorem getFuriganaLoop_cursor_monotone_bounded_witness :
    (0 ≤ (katakanaToHiragana ['ア']).length) ∧
    0 ≤ (getFuriganaLoop (fun _ => []) (katakanaToHiragana ['ア']) ['あ'] 0 0).2 ∧
      (getFuriganaLoop (fun _ => []) (katakanaToHiragana ['ア']) ['あ'] 0 0).2 ≤
        (['ア'] : List Char).length :=
  ⟨Nat.zero_le _,
    (getFuriganaLoop_cursor_monotone_bounded (fun _ => []) ['ア'] ['あ'] 0 0 (Nat.zero_le _)).1,
    (getFuriganaLoop_cursor_monotone_bounded (fun _ => []) ['ア'] ['あ'] 0 0 (Nat.zero_le _)).2⟩

/-- C4: when the walk reaches a kanji whose candidate variants (and their
rendaku forms, for a non-first unit) all fail to match at the cursor, no
kanji follows, and reading remains, the unit absorbs the entire remaining
reading and the cursor ends at the reading length: no reading character is
dropped at the tail. -/
theorem getFuriganaLoop_tail_absorption (prov : Char → List (List Char))
    (rd : List Char) (s : Char) (rest : List Char) (j k : Nat)
    (hs : isKanji s = true)
    (hnm : ∀ kr ∈ prov s, ∀ v ∈ variantsOf kr,
      ¬ MatchesAt rd k v ∧ (0 < j → ¬ MatchesAt rd k (rendakuForm v)))
    (hlast : rest.any isKanji = false)
    (hrem : k < rd.length) :
    (getFuriganaLoop prov rd (s :: rest) j k).1.head? = some ([s], rd.drop k) ∧
      (getFuriganaLoop prov rd (s :: rest) j k).2 = rd.length := by
  have hbest := bestMatchFor_eq_nil prov rd j k s hnm
  simp only [getFuriganaLoop]
  rw [if_pos hs, hbest]
  dsimp only
  rw [if_neg (by simp : ¬(([] : List Char) ≠ []))]
  rw [if_pos ⟨hlast, hrem⟩]
  exact ⟨rfl, getFuriganaLoop_k_fixed prov rd rest (j + 1) hlast⟩

theorem getFuriganaLoop_tail_absorption_witness :
    isKanji '山' = true ∧ (0 : Nat) < (['や'] : List Char).length ∧
    (getFuriganaLoop (fun _ => []) ['や'] ['山'] 0 0).1.head? = some (['山'], ['や']) ∧
    (getFuriganaLoop (fun _ => []) ['や'] ['山'] 0 0).2 = 1 := by
  have h := getFuriganaLoop_tail_absorption (fun _ => []) ['や'] '山' [] 0 0 (by decide)
    (by simp) (by decide) (by decide)
  exact ⟨by decide, by decide, by simpa using h.1, by simpa using h.2⟩

/-- C10: on a kanji-free surface, any leftover reading is appended as a
trailing pair with empty unit text, and the bracket-only formatter skips
every empty-unit pair, so the formatted output is exactly the surface:
the leftover appears in no formatted output. -/
theorem format_no_kanji_leftover_invisible (prov : Char → List (List Char))
    (surface reading : List Char) (h : surface.any isKanji = false) :
    (formatFuriganaBracketsOnly (getFuriganaString prov surface reading) = surface) ∧
    ((getFuriganaLoop prov (katakanaToHiragana reading) surface 0 0).2 <
        (katakanaToHiragana reading).length →
      getFuriganaString prov surface reading =
        (getFuriganaLoop prov (katakanaToHiragana reading) surface 0 0).1 ++
          [([], (katakanaToHiragana reading).drop
            (getFuriganaLoop prov (katakanaToHiragana reading) surface 0 0).2)]) := by
  constructor
  · unfold getFuriganaString
    dsimp only
    split_ifs with hc
    · rw [formatFuriganaBracketsOnly_append, formatFuriganaBracketsOnly_empty_unit,
        List.append_nil]
      exact format_loop_no_kanji prov _ surface 0 0 h
    · exact format_loop_no_kanji prov _ surface 0 0 h
  · intro hlt
    unfold getFuriganaString
    dsimp only
    rw [if_pos ⟨h, hlt⟩]

theorem format_no_kanji_leftover_invisible_witness :
    (['あ'] : List Char).any isKanji = false ∧
    formatFuriganaBracketsOnly (getFuriganaString (fun _ => []) ['あ'] ['あ', 'い']) = ['あ'] ∧
    getFuriganaString (fun _ => []) ['あ'] ['あ', 'い'] = [(['あ'], []), ([], ['い'])] := by
  have h := format_no_kanji_leftover_invisible (fun _ => []) ['あ'] ['あ', 'い'] (by decide)
  exact ⟨by decide, h.1, by simpa using h.2 (by decide)⟩

/-- C1 counterexample: the first candidate `た` of `山` prefix-matches at
cursor 0 and its continuation consumes the rest of the reading exactly,
yet the engine selects the longer, later variant `たた` — selection is by
lexical length, not by candidate order. -/
theorem getFuriganaString_not_first_match_cex :
    (((fun c => if c = '山' then [['た'], ['た', 'た']]
        else if c = '川' then [['た', 'た'], ['た']]
        else ([] : List (List Char))) '山').head? = some ['た'])
    ∧ MatchesAt ['た', 'た', 'た'] 0 ['た']
    ∧ (getFuriganaLoop (fun c => if c = '山' then [['た'], ['た', 'た']]
        else if c = '川' then [['た', 'た'], ['た']]
        else ([] : List (List Char))) ['た', 'た', 'た'] ['川'] 1 1).2 = 3
    ∧ getFuriganaString (fun c => if c = '山' then [['た'], ['た', 'た']]
        else if c = '川' then [['た', 'た'], ['た']]
        else ([] : List (List Char))) ['山', '川'] ['た', 'た', 'た']
        = [(['山'], ['た', 'た']), (['川'], ['た'])]
    ∧ (getFuriganaString (fun c => if c = '山' then [['た'], ['た', 'た']]
        else if c = '川' then [['た', 'た'], ['た']]
        else ([] : List (List Char))) ['山', '川'] ['た', 'た', 'た']).head?
        ≠ some (['山'], ['た']) := by decide

/-- C1 amended: per logographic unit the engine selects by maximal match
length — every literally matching variant (and, for a non-first unit,
every matching rendaku form) is a lower bound on the selected length, and
a non-empty selection is itself such a match of some candidate variant. -/
theorem bestMatchFor_longest_selection (prov : Char → List (List Char))
    (rd : List Char) (j k : Nat) (s : Char) :
    (∀ kr ∈ prov s, ∀ v ∈ variantsOf kr,
      (MatchesAt rd k v → v.length ≤ (bestMatchFor prov rd j k s).2) ∧
      (0 < j → MatchesAt rd k (rendakuForm v) →
        (rendakuForm v).length ≤ (bestMatchFor prov rd j k s).2)) ∧
    ((bestMatchFor prov rd j k s).1 ≠ [] →
      ∃ kr ∈ prov s, ∃ v ∈ variantsOf kr,
        ((bestMatchFor prov rd j k s).1 = v ∧ MatchesAt rd k v ∧
          (bestMatchFor prov rd j k s).2 = v.length) ∨
        (0 < j ∧ (bestMatchFor prov rd j k s).1 = rendakuForm v ∧
          MatchesAt rd k (rendakuForm v) ∧
          (bestMatchFor prov rd j k s).2 = (rendakuForm v).length)) := by
  constructor
  · intro kr hkr v hv
    exact bestOverCands_ge rd j k ([], 0) hkr hv
  · intro hne
    rcases bestMatchFor_good prov rd j k s with ⟨hl, _⟩ | hr
    · exact absurd hl hne
    · exact hr

theorem bestMatchFor_longest_selection_witness :
    MatchesAt ['た'] 0 ['た'] ∧
    (['た'] : List Char).length ≤ (bestMatchFor (fun _ => [['た']]) ['た'] 0 0 'あ').2 :=
  ⟨by decide,
    ((bestMatchFor_longest_selection (fun _ => [['た']]) ['た'] 0 0 'あ').1
      ['た'] (by decide) ['た'] (by decide)).1 (by decide)⟩

/-- C3 counterexample: at surface position 0 the kana `あ` does not match
the reading head `い`, yet the branch does not fail — the unit is skipped
with empty furigana and the search succeeds; the matching kana unit `い`
receives the kana itself as furigana, not the empty string. -/
theorem recur_kana_mismatch_skip_cex :
    (['い'] : List Char)[0]? ≠ some 'あ' ∧
    recur (fun _ => []) ['い'] ['あ', 'い'] 0 = some [(['あ'], []), (['い'], ['い'])] := by
  decide

/-- C3 amended: the kana branch compares the normalized reading code point
at the cursor with the raw surface code point; on equality it consumes it
(cursor `k+1`, the kana itself as furigana), otherwise it skips the unit
(cursor unchanged, empty furigana) — in both cases the branch succeeds iff
the continuation does. -/
theorem recur_kana_unit_spec (prov : Char → List (List Char)) (rd : List Char)
    (s : Char) (rest : List Char) (k : Nat) (hk : isKana s = true) :
    recur prov rd (s :: rest) k =
      if rd[k]? = some s then
        (recur prov rd rest (k + 1)).map (fun ps => ([s], [s]) :: ps)
      else
        (recur prov rd rest k).map (fun ps => ([s], []) :: ps) :=
  recur_cons_kana prov rd rest k hk

theorem recur_kana_unit_spec_witness :
    isKana 'あ' = true ∧
    recur (fun _ => []) ['あ'] ['あ'] 0 =
      (if (['あ'] : List Char)[0]? = some 'あ' then
        (recur (fun _ => []) ['あ'] [] 1).map (fun ps => (['あ'], ['あ']) :: ps)
      else
        (recur (fun _ => []) ['あ'] [] 0).map (fun ps => (['あ'], []) :: ps)) :=
  ⟨by decide, recur_kana_unit_spec (fun _ => []) ['あ'] 'あ' [] 0 (by decide)⟩

/-- C6: whenever the backtracking search succeeds from the root, the
furigana spans concatenate to the whole normalized reading — total
consumption equals `len(Reading)` with no gaps or overlaps — and the unit
texts concatenate to the surface in order. -/
theorem recur_success_reading_conservation (prov : Char → List (List Char))
    (surface reading : List Char) (pairs : List FuriPair)
    (h : recur prov (katakanaToHiragana reading) surface 0 = some pairs) :
    (pairs.map (fun p => p.2.length)).sum = reading.length ∧
    (pairs.map Prod.snd).flatten = katakanaToHiragana reading ∧
    (pairs.map Prod.fst).flatten = surface := by
  obtain ⟨h1, h2⟩ := recur_eq_some_flatten h
  rw [List.drop_zero] at h1
  refine ⟨?_, h1, h2⟩
  have hlen := congrArg List.length h1
  rw [List.length_flatten, List.map_map, length_katakanaToHiragana] at hlen
  simpa [Function.comp] using hlen

theorem recur_success_reading_conservation_witness :
    recur (fun c => if c = '山' then [['や', 'ま']] else [])
        (katakanaToHiragana ['や', 'ま']) ['山'] 0 = some [(['山'], ['や', 'ま'])] ∧
    ([((['山'] : List Char), (['や', 'ま'] : List Char))].map (fun p => p.2.length)).sum =
      (['や', 'ま'] : List Char).length :=
  ⟨by decide,
    (recur_success_reading_conservation (fun c => if c = '山' then [['や', 'ま']] else [])
      ['山'] ['や', 'ま'] [(['山'], ['や', 'ま'])] (by decide)).1⟩

/-- C7: the Rendaku Transformer voices the first code point when it is a
key of the fixed table and returns the identical input otherwise
(including the empty string). -/
theorem rendakuForm_spec :
    (∀ (c : Char) (rest : List Char) (v : Char),
      rendakuMap c = some v → rendakuForm (c :: rest) = v :: rest) ∧
    (∀ s : List Char, s.head?.bind rendakuMap = none → rendakuForm s = s) := by
  constructor
  · intro c rest v hv
    simp [rendakuForm, hv]
  · intro s hs
    cases s with
    | nil => rfl
    | cons c rest =>
      simp only [List.head?_cons, Option.some_bind] at hs
      simp [rendakuForm, hs]

theorem rendakuForm_spec_witness :
    rendakuForm ['か', 'わ'] = ['が', 'わ'] ∧ rendakuForm ['あ'] = ['あ'] :=
  ⟨rendakuForm_spec.1 'か' ['わ'] 'が' (by decide), rendakuForm_spec.2 ['あ'] (by decide)⟩

/-- C8 counterexample: `ー` (U+30FC) lies in the katakana block of the
Character Classifier, yet the Script Normalizer passes it through
unchanged — it is not shifted down by 0x60. -/
theorem katakanaToHiragana_block_gap_cex :
    isKana 'ー' = true ∧ (0x30A0 ≤ 'ー'.toNat ∧ 'ー'.toNat ≤ 0x30FF) ∧
    katakanaToHiragana ['ー'] = ['ー'] ∧
    'ー' ≠ Char.ofNat ('ー'.toNat - 0x60) := by decide

/-- C8 amended: the Script Normalizer preserves length and shifts exactly
the code points in U+30A1..U+30F6 (the katakana with hiragana
counterparts) down by 0x60; every other code point — including the rest
of the katakana block — passes through unchanged. -/
theorem katakanaToHiragana_pointwise_spec (s : List Char) :
    (katakanaToHiragana s).length = s.length ∧
    ∀ i : Nat, (katakanaToHiragana s)[i]? =
      (s[i]?).map (fun c =>
        if 0x30A1 ≤ c.toNat ∧ c.toNat ≤ 0x30F6 then Char.ofNat (c.toNat - 0x60) else c) := by
  refine ⟨length_katakanaToHiragana s, ?_⟩
  intro i
  unfold katakanaToHiragana
  rw [List.getElem?_map]
  rfl

/-- C5 counterexample: with two kanji and a one-character reading the
search fails and the Fallback Segmenter produces segment lengths `[1, 0]`
— the second segment is empty, so the segments are not all non-empty as
claimed. -/
theorem fallback_empty_segment_cex :
    recur (fun _ => []) ['や'] ['山', '川'] 0 = none ∧
    0 < ((['山', '川'] : List Char).filter isKanji).length ∧
    fallbackLens ['や'] 2 = [1, 0] ∧
    fallbackPairs ['や'] ['山', '川'] = [(['山'], ['や']), (['川'], [])] ∧
    ¬ (∀ l ∈ fallbackLens ['や'] 2, 0 < l) := by decide

/-- C5 amended: when the search fails and the surface holds `n > 0` kanji,
the Fallback Segmenter cuts the normalized reading into exactly `n`
contiguous segments whose lengths sum to `len(Reading)`, follow the closed
form `len/n` plus one for the first `len%n` indices (earliest segments one
longer), and are all non-empty whenever `len(Reading) ≥ n`; the i-th
segment is assigned to the i-th kanji in surface order. -/
theorem fallbackSegmenter_spec (prov : Char → List (List Char))
    (surface reading : List Char)
    (_hfail : recur prov (katakanaToHiragana reading) surface 0 = none)
    (hn : 0 < (surface.filter isKanji).length) :
    (fallbackLens (katakanaToHiragana reading) ((surface.filter isKanji).length)).length
        = (surface.filter isKanji).length ∧
    (fallbackLens (katakanaToHiragana reading) ((surface.filter isKanji).length)).sum
        = reading.length ∧
    fallbackLens (katakanaToHiragana reading) ((surface.filter isKanji).length)
        = (List.range ((surface.filter isKanji).length)).map
            (fun t => reading.length / (surface.filter isKanji).length +
              if t < reading.length % (surface.filter isKanji).length then 1 else 0) ∧
    (fallbackSegs (katakanaToHiragana reading) ((surface.filter isKanji).length)).flatten
        = katakanaToHiragana reading ∧
    ((surface.filter isKanji).length ≤ reading.length →
      ∀ l ∈ fallbackLens (katakanaToHiragana reading) ((surface.filter isKanji).length),
        0 < l) ∧
    ((fallbackPairs (katakanaToHiragana reading) surface).filter
        (fun p => p.1.any isKanji)).map Prod.snd
      = fallbackSegs (katakanaToHiragana reading) ((surface.filter isKanji).length) := by
  have hL : (katakanaToHiragana reading).length = reading.length :=
    length_katakanaToHiragana reading
  have hform : fallbackLens (katakanaToHiragana reading) ((surface.filter isKanji).length)
      = (List.range ((surface.filter isKanji).length)).map
          (fun t => reading.length / (surface.filter isKanji).length +
            if t < reading.length % (surface.filter isKanji).length then 1 else 0) := by
    unfold fallbackLens
    rw [segLensGo_root _ _ hn, hL]
  have hlen : (fallbackLens (katakanaToHiragana reading)
      ((surface.filter isKanji).length)).length = (surface.filter isKanji).length := by
    rw [hform, List.length_map, List.length_range]
  have hmodlt : reading.length % (surface.filter isKanji).length <
      (surface.filter isKanji).length := Nat.mod_lt _ hn
  have hsum : (fallbackLens (katakanaToHiragana reading)
      ((surface.filter isKanji).length)).sum = reading.length := by
    rw [hform, segLens_sum_range]
    have hdm := Nat.div_add_mod reading.length ((surface.filter isKanji).length)
    omega
  refine ⟨hlen, hsum, hform, ?_, ?_, ?_⟩
  · unfold fallbackSegs
    rw [segsFromLens_flatten, hsum, ← hL, List.take_length]
  · intro hge l hl
    rw [hform] at hl
    obtain ⟨t, _, rfl⟩ := List.mem_map.mp hl
    have hq : 1 ≤ reading.length / (surface.filter isKanji).length :=
      (Nat.one_le_div_iff hn).mpr hge
    by_cases hc : t < reading.length % (surface.filter isKanji).length
    · rw [if_pos hc]; omega
    · rw [if_neg hc]; omega
  · unfold fallbackPairs
    have hslen : (fallbackSegs (katakanaToHiragana reading)
        ((surface.filter isKanji).length)).length = (surface.filter isKanji).length := by
      unfold fallbackSegs
      rw [segsFromLens_length, hlen]
    rw [assignSegs_kanji_furigana surface _ (le_of_eq hslen.symm)]
    exact List.take_of_length_le (le_of_eq hslen)

theorem fallbackSegmenter_spec_witness :
    recur (fun _ => []) (katakanaToHiragana ['や', 'ま', 'か']) ['山', '川'] 0 = none ∧
    (fallbackLens (katakanaToHiragana ['や', 'ま', 'か'])
      (((['山', '川'] : List Char).filter isKanji).length)).sum = 3 :=
  ⟨by decide,
    ((fallbackSegmenter_spec (fun _ => []) ['山', '川'] ['や', 'ま', 'か']
      (by decide) (by decide)).2).1⟩
end JapaneseParse
